import Mathlib

/-!
Verification of the GPyTorch example notebooks (simple GP classification and
KISS-GP regression).  The notebooks delegate the numerical core — the RBF
kernel, the grid interpolation kernel and the conjugate-gradient solver — to
the imported library, so those components are modelled here from the
specification; the model code that appears literally in the notebooks
(`GPRegressionModel.forward`, the `pred_labels` computation) is embedded
directly.
-/

namespace GPyTorchExamples

open Matrix
open scoped BigOperators

/-! ### Structured covariance approximation (SKI) -/

/-- Modelled from the spec: the structured matrix–vector product of §4.4
(`GridInterpolationKernel` is not under `src/`): given a vector `v` of
length `N`, return `W·(K_grid·(Wᵗ·v))`, never materialising the dense
matrix. -/
def structuredMVP {N M : Type*} [Fintype N] [Fintype M]
    (W : Matrix N M ℝ) (K : Matrix M M ℝ) (v : N → ℝ) : N → ℝ :=
  W *ᵥ (K *ᵥ (Wᵀ *ᵥ v))

/-- Modelled from the spec: the conceptual dense approximate covariance
`W·K_grid·Wᵗ` of §3 ("ApproximateCovariance"), the reference object the
structured product must agree with. -/
def denseApproxCovariance {N M : Type*} [Fintype N] [Fintype M]
    (W : Matrix N M ℝ) (K : Matrix M M ℝ) : Matrix N N ℝ :=
  W * K * Wᵀ

/-! ### Interpolation weights (cubic convolution), over `ℚ` so that every
definition is executable -/

/-- Modelled from the spec: the third-order (cubic convolution) interpolation
kernel of §4.3, the classical Keys kernel with parameter `-1/2`
(`Interpolation` is not under `src/`). -/
def cubicKernel (s : ℚ) : ℚ :=
  if |s| ≤ 1 then (3 / 2) * |s| ^ 3 - (5 / 2) * |s| ^ 2 + 1
  else if |s| ≤ 2 then -(1 / 2) * |s| ^ 3 + (5 / 2) * |s| ^ 2 - 4 * |s| + 2
  else 0

/-- Modelled from the spec: the inducing grid of §4.2, `M` regularly spaced
coordinates spanning the declared bounds; node `i` sits at
`lo + i·(hi − lo)/(M − 1)`. -/
def gridPoint (lo hi : ℚ) (M : ℕ) (i : ℤ) : ℚ :=
  lo + (i : ℚ) * ((hi - lo) / ((M : ℚ) - 1))

/-- Modelled from the spec: interpolation weights of §4.3 for a single query
point `x` (`GridInterpolationKernel` is not under `src/`).  Returns the index
`j` of the grid cell containing `x` together with the four cubic-convolution
weights attached to nodes `j-1, j, j+1, j+2`; a point outside the declared
grid bounds yields `none`, modelling the out-of-range error. -/
def interpWeights (lo hi : ℚ) (M : ℕ) (x : ℚ) : Option (ℤ × (Fin 4 → ℚ)) :=
  if lo ≤ x ∧ x ≤ hi then
    let h := (hi - lo) / ((M : ℚ) - 1)
    let z := (x - lo) / h
    let t := Int.fract z
    some (⌊z⌋, ![cubicKernel (t + 1), cubicKernel t,
                 cubicKernel (t - 1), cubicKernel (t - 2)])
  else none

/-! ### RBF kernel and the grid kernel matrix, over `ℝ` -/

/-- Modelled from the spec: the radial-basis-function covariance kernel of
§4.1 with lengthscale `l` (`RBFKernel` is not under `src/`). -/
noncomputable def rbfKernel (l : ℝ) (x y : ℝ) : ℝ :=
  Real.exp (-((x - y) ^ 2) / (2 * l ^ 2))

/-- Modelled from the spec: the inducing grid of §4.2 over the reals, used by
the grid-grid kernel matrix. -/
noncomputable def realGridPoint (lo hi : ℝ) (M : ℕ) (i : Fin M) : ℝ :=
  lo + (i : ℝ) * ((hi - lo) / ((M : ℝ) - 1))

/-- Modelled from the spec: the dense `M×M` grid-grid kernel matrix
`K_grid` of §3, the RBF kernel evaluated on all pairs of grid nodes. -/
noncomputable def gridKernelMatrix (l lo hi : ℝ) (M : ℕ) : Matrix (Fin M) (Fin M) ℝ :=
  Matrix.of fun i j =>
    rbfKernel l (realGridPoint lo hi M i) (realGridPoint lo hi M j)

/-! ### Hyperparameters and the SKI forward pass -/

/-- The unconstrained (log-space) hyperparameters owned by the model, as in
the notebook: `log_outputscale` is registered in `GPRegressionModel.__init__`;
lengthscale and noise live in the library modules. -/
structure Hyperparams where
  logLengthscale : ℝ
  logOutputscale : ℝ
  logNoise : ℝ

/-- Modelled from the spec: one forward pass of the grid interpolation kernel
on a batch of input locations: the interpolation-weight table for every input
point, paired with the hyperparameter-dependent grid kernel matrix. -/
noncomputable def skiForward (θ : Hyperparams) (lo hi : ℚ) (M : ℕ) {N : ℕ}
    (xs : Fin N → ℚ) :
    (Fin N → Option (ℤ × (Fin 4 → ℚ))) × Matrix (Fin M) (Fin M) ℝ :=
  (fun i => interpWeights lo hi M (xs i),
   gridKernelMatrix (Real.exp θ.logLengthscale) (lo : ℝ) (hi : ℝ) M)

/-- From the source (`GPRegressionModel.forward`): the output scale applied
to the covariance is `self.log_outputscale.exp()`. -/
noncomputable def appliedOutputscale (logOutputscale : ℝ) : ℝ :=
  Real.exp logOutputscale

/-- Modelled from the spec: the kernel lengthscale applied inside `RBFKernel`
is the exponential of an unconstrained log-lengthscale parameter
(positivity-preserving reparameterization, §7; `RBFKernel` is not under
`src/`). -/
noncomputable def appliedLengthscale (logLengthscale : ℝ) : ℝ :=
  Real.exp logLengthscale

/-- From the source (`GPRegressionModel.forward`):
`covar_x = covar_x.mul(self.log_outputscale.exp())`. -/
noncomputable def forwardCovar {n : Type*} (logOutputscale : ℝ) (K : Matrix n n ℝ) :
    Matrix n n ℝ :=
  Real.exp logOutputscale • K

/-- From the source (classification notebook, prediction cell):
`pred_labels = observed_pred.mean().ge(0.5).float().mul(2).sub(1)`,
applied pointwise to the posterior mean at one test point. -/
noncomputable def predLabel (m : ℝ) : ℝ :=
  (if 0.5 ≤ m then (1 : ℝ) else 0) * 2 - 1

/-! ### The iterative (conjugate-gradient) linear solver -/

/-- State of the conjugate-gradient iteration: current iterate `x`, residual
`r` and search direction `p`. -/
structure CGState (n : Type*) [Fintype n] where
  x : n → ℝ
  r : n → ℝ
  p : n → ℝ

/-- Modelled from the spec: initial state of the conjugate-gradient solver of
§4.5 (`linear_cg` is not under `src/`): zero initial iterate, so the initial
residual and search direction are both `b`. -/
def cgInit {n : Type*} [Fintype n] (b : n → ℝ) : CGState n :=
  ⟨0, b, b⟩

/-- The conjugate-gradient step length: `(r ⬝ᵥ r) / (p ⬝ᵥ A·p)`. -/
noncomputable def cgAlpha {n : Type*} [Fintype n] (A : Matrix n n ℝ)
    (s : CGState n) : ℝ :=
  (s.r ⬝ᵥ s.r) / (s.p ⬝ᵥ (A *ᵥ s.p))

/-- The updated residual after one conjugate-gradient step. -/
noncomputable def cgResNew {n : Type*} [Fintype n] (A : Matrix n n ℝ)
    (s : CGState n) : n → ℝ :=
  s.r - cgAlpha A s • (A *ᵥ s.p)

/-- The conjugate-gradient direction-update coefficient
`(r_new ⬝ᵥ r_new) / (r ⬝ᵥ r)`. -/
noncomputable def cgBeta {n : Type*} [Fintype n] (A : Matrix n n ℝ)
    (s : CGState n) : ℝ :=
  (cgResNew A s ⬝ᵥ cgResNew A s) / (s.r ⬝ᵥ s.r)

/-- Modelled from the spec: one iteration of the conjugate-gradient method of
§4.5 (`linear_cg` is not under `src/`): one matrix–vector product plus `O(N)`
vector arithmetic; a state with zero residual (exact solution reached) is
left unchanged. -/
noncomputable def cgStep {n : Type*} [Fintype n] (A : Matrix n n ℝ)
    (s : CGState n) : CGState n :=
  if s.r ⬝ᵥ s.r = 0 then s
  else
    ⟨s.x + cgAlpha A s • s.p, cgResNew A s, cgResNew A s + cgBeta A s • s.p⟩

/-- The state of the conjugate-gradient solver after `k` iterations started
from the zero iterate. -/
noncomputable def cgIterate {n : Type*} [Fintype n] (A : Matrix n n ℝ)
    (b : n → ℝ) (k : ℕ) : CGState n :=
  (cgStep A)^[k] (cgInit b)

/-- Squared Euclidean norm of the residual of a conjugate-gradient state, the
quantity the solver monitors for convergence. -/
def resNormSq {n : Type*} [Fintype n] (s : CGState n) : ℝ :=
  s.r ⬝ᵥ s.r

/-- Modelled from the spec: the solver entry point of §4.5 with an iteration
budget and a tolerance on the squared residual norm: it runs up to `maxIter`
iterations and returns the final iterate together with a convergence-warning
flag, which is `true` exactly when the tolerance was not reached within the
budget; it never fails. -/
noncomputable def cgSolve {n : Type*} [Fintype n] (A : Matrix n n ℝ)
    (b : n → ℝ) (maxIter : ℕ) (tol : ℝ) : (n → ℝ) × Bool :=
  let s := cgIterate A b maxIter
  if resNormSq s ≤ tol then (s.x, false) else (s.x, true)

/-- A real matrix is symmetric positive-definite: equal to its transpose,
with a positive quadratic form away from zero. -/
def IsSPD {n : Type*} [Fintype n] (A : Matrix n n ℝ) : Prop :=
  Aᵀ = A ∧ ∀ x : n → ℝ, x ≠ 0 → 0 < x ⬝ᵥ (A *ᵥ x)

/-- The loop invariant of the conjugate-gradient iteration: the search
direction is not yet deflated against the residual
(`p ⬝ᵥ r = r ⬝ᵥ r`), and `r` is the true residual of `x`. -/
def CGInv {n : Type*} [Fintype n] (A : Matrix n n ℝ) (b : n → ℝ)
    (s : CGState n) : Prop :=
  s.p ⬝ᵥ s.r = s.r ⬝ᵥ s.r ∧ s.r = b - A *ᵥ s.x

/-- Squared energy norm (`A`-norm) of the error of a conjugate-gradient
state with respect to the exact solution `xstar`. -/
def errEnergySq {n : Type*} [Fintype n] (A : Matrix n n ℝ) (xstar : n → ℝ)
    (s : CGState n) : ℝ :=
  (xstar - s.x) ⬝ᵥ (A *ᵥ (xstar - s.x))

/-! ### Theorems -/

/-- Claim C1: for every interpolation-weight matrix `W`, grid kernel matrix
`K_grid` and vector `v`, the structured matrix–vector product
`W·(K_grid·(Wᵗ·v))` equals the explicitly formed dense matrix `W·K_grid·Wᵗ`
applied to `v` — exactly, in real arithmetic, hence within any numerical
tolerance and at any size, including `N = 20`, `M = 10`. -/
theorem structuredMVP_eq_denseApproxCovariance_mulVec
    {N M : Type*} [Fintype N] [Fintype M]
    (W : Matrix N M ℝ) (K : Matrix M M ℝ) (v : N → ℝ) :
    structuredMVP W K v = (denseApproxCovariance W K) *ᵥ v := by
  simp [structuredMVP, denseApproxCovariance, Matrix.mul_assoc]

/-- The four cubic-convolution weights of a point with fractional grid offset
`t ∈ [0, 1)` always sum to 1 — the classical partition-of-unity property of
the Keys kernel. -/
lemma cubicKernel_partition_unit (t : ℚ) (h0 : 0 ≤ t) (h1 : t < 1) :
    cubicKernel (t + 1) + cubicKernel t + cubicKernel (t - 1) +
      cubicKernel (t - 2) = 1 := by
  rcases eq_or_lt_of_le h0 with h | h
  · rw [← h]
    norm_num [cubicKernel]
  · have e1 : |t + 1| = t + 1 := abs_of_pos (by linarith)
    have e2 : |t| = t := abs_of_pos h
    have e3 : |t - 1| = 1 - t := by rw [abs_of_neg (by linarith)]; ring
    have e4 : |t - 2| = 2 - t := by rw [abs_of_neg (by linarith)]; ring
    simp only [cubicKernel, e1, e2, e3, e4]
    rw [if_neg (by linarith), if_pos (by linarith), if_pos (by linarith),
        if_pos (by linarith), if_neg (by linarith), if_pos (by linarith)]
    ring

/-- Claim C2: for every query point lying within the declared grid bounds,
the four interpolation weights computed for that point sum to exactly 1
(hence to 1 within the `1e-6` tolerance). -/
theorem interpWeights_sum_one (lo hi x : ℚ) (M : ℕ)
    (hlo : lo ≤ x) (hhi : x ≤ hi) :
    ∃ j w, interpWeights lo hi M x = some (j, w) ∧ ∑ k, w k = 1 := by
  simp only [interpWeights]
  rw [if_pos ⟨hlo, hhi⟩]
  refine ⟨_, _, rfl, ?_⟩
  rw [Fin.sum_univ_four]
  simp only [Matrix.cons_val_zero, Matrix.cons_val_one, Matrix.head_cons,
    Matrix.cons_val_two, Matrix.tail_cons, Matrix.cons_val_three]
  exact cubicKernel_partition_unit _ (Int.fract_nonneg _) (Int.fract_lt_one _)

/-- Witness for claim C2 at `lo = 0`, `hi = 1`, `M = 400`, `x = 1/3`. -/
theorem interpWeights_sum_one_witness :
    ∃ j w, interpWeights 0 1 400 (1 / 3) = some (j, w) ∧ ∑ k, w k = 1 :=
  interpWeights_sum_one 0 1 (1 / 3) 400 (by norm_num) (by norm_num)

/-- Claim C3: for a fixed set of input locations the interpolation-weight
tables computed by the grid interpolation kernel's forward pass are identical
under any two hyperparameter settings — the weight computation is purely
geometric, even though the grid kernel component of the same forward pass
does depend on the hyperparameters. -/
theorem skiForward_weights_hyperparam_independent
    (θ₁ θ₂ : Hyperparams) (lo hi : ℚ) (M : ℕ) {N : ℕ} (xs : Fin N → ℚ) :
    (skiForward θ₁ lo hi M xs).1 = (skiForward θ₂ lo hi M xs).1 := rfl

/-- Claim C4: a query point strictly outside the declared grid bounds makes
the interpolation fail with the out-of-range error (modelled as `none`)
rather than silently extrapolating. -/
theorem interpWeights_out_of_bounds (lo hi x : ℚ) (M : ℕ)
    (h : x < lo ∨ hi < x) : interpWeights lo hi M x = none := by
  simp only [interpWeights]
  rw [if_neg]
  rintro ⟨h1, h2⟩
  rcases h with h | h
  · exact absurd h1 (not_le.mpr h)
  · exact absurd h2 (not_le.mpr h)

/-- Witness for claim C4: the point `2` lies outside the bounds `[0, 1]` of a
400-node grid and is rejected. -/
theorem interpWeights_out_of_bounds_witness :
    interpWeights 0 1 400 2 = none :=
  interpWeights_out_of_bounds 0 1 2 400 (Or.inr (by norm_num))

/-- Claim C8: a query point that coincides exactly with grid node `j`
receives interpolation weight exactly 1 on that node (the second of the four
stencil entries, which is attached to node `j`) and exactly 0 on the other
three stencil nodes. -/
theorem interpWeights_at_gridnode (lo hi : ℚ) (M : ℕ) (j : ℤ)
    (hM : 2 ≤ M) (hlh : lo < hi)
    (h1 : lo ≤ gridPoint lo hi M j) (h2 : gridPoint lo hi M j ≤ hi) :
    interpWeights lo hi M (gridPoint lo hi M j) = some (j, ![0, 1, 0, 0]) := by
  have hden : ((M : ℚ) - 1) ≠ 0 := by
    have h2M : (2 : ℚ) ≤ (M : ℚ) := by exact_mod_cast hM
    linarith
  have hh : (hi - lo) / ((M : ℚ) - 1) ≠ 0 :=
    div_ne_zero (by linarith) hden
  have hz : (gridPoint lo hi M j - lo) / ((hi - lo) / ((M : ℚ) - 1))
      = (j : ℚ) := by
    unfold gridPoint
    rw [add_sub_cancel_left, mul_div_cancel_right₀ _ hh]
  have c1 : cubicKernel (0 + 1) = 0 := by norm_num [cubicKernel]
  have c0 : cubicKernel (0 : ℚ) = 1 := by norm_num [cubicKernel]
  have cm1 : cubicKernel (0 - 1) = 0 := by norm_num [cubicKernel]
  have cm2 : cubicKernel (0 - 2) = 0 := by norm_num [cubicKernel]
  simp only [interpWeights]
  rw [if_pos ⟨h1, h2⟩, hz, Int.floor_intCast, Int.fract_intCast,
    c1, c0, cm1, cm2]

/-- Witness for claim C8: on the 3-node grid over `[0, 1]`, the middle node
`1/2` queries back to weights `(0, 1, 0, 0)`. -/
theorem interpWeights_at_gridnode_witness :
    interpWeights 0 1 3 (gridPoint 0 1 3 1) = some (1, ![0, 1, 0, 0]) :=
  interpWeights_at_gridnode 0 1 3 1 (by norm_num) (by norm_num)
    (by norm_num [gridPoint]) (by norm_num [gridPoint])

/-- Claim C9: the hyperparameters applied in kernel evaluation arise from an
exponential reparameterization of unconstrained parameters, so for every real
value of the unconstrained parameter the applied output scale and the applied
lengthscale are strictly positive, and the covariance returned by
`GPRegressionModel.forward` is the prior covariance scaled by exactly
`exp(log_outputscale)`. -/
theorem reparameterized_scales_pos (lov llv : ℝ) :
    0 < appliedOutputscale lov ∧ 0 < appliedLengthscale llv ∧
      ∀ (n : Type*) (K : Matrix n n ℝ),
        forwardCovar lov K = appliedOutputscale lov • K :=
  ⟨Real.exp_pos _, Real.exp_pos _, fun _ _ => rfl⟩

/-- Claim C10: the predicted label computed in the classification notebook by
thresholding the posterior class probability at `0.5` is exactly `+1` or
`-1`; no other value is possible. -/
theorem predLabel_eq_one_or_neg_one (m : ℝ) :
    predLabel m = 1 ∨ predLabel m = -1 := by
  unfold predLabel
  by_cases h : (0.5 : ℝ) ≤ m
  · left; rw [if_pos h]; norm_num
  · right; rw [if_neg h]; norm_num

/-! ### Conjugate-gradient lemmas -/

lemma dotProduct_self_nonneg {n : Type*} [Fintype n] (v : n → ℝ) :
    0 ≤ v ⬝ᵥ v :=
  Finset.sum_nonneg fun i _ => mul_self_nonneg (v i)

/-- For a symmetric matrix the bilinear form is symmetric. -/
lemma dotProduct_mulVec_symm {n : Type*} [Fintype n] {A : Matrix n n ℝ}
    (hA : Aᵀ = A) (u v : n → ℝ) :
    u ⬝ᵥ (A *ᵥ v) = v ⬝ᵥ (A *ᵥ u) := by
  rw [Matrix.dotProduct_mulVec, ← Matrix.mulVec_transpose, hA,
    Matrix.dotProduct_comm]

lemma cgInv_init {n : Type*} [Fintype n] (A : Matrix n n ℝ) (b : n → ℝ) :
    CGInv A b (cgInit b) := by
  constructor
  · rfl
  · simp [cgInit]

/-- On a nonzero residual, the search direction has a positive curvature
`p ⬝ᵥ A·p`, so the step length is well defined. -/
lemma cg_pAp_pos {n : Type*} [Fintype n] {A : Matrix n n ℝ} {b : n → ℝ}
    (hA : IsSPD A) {s : CGState n} (hs : CGInv A b s)
    (h : s.r ⬝ᵥ s.r ≠ 0) : 0 < s.p ⬝ᵥ (A *ᵥ s.p) := by
  apply hA.2
  intro hp0
  apply h
  rw [← hs.1, hp0, Matrix.zero_dotProduct]

/-- The new residual is orthogonal to the old search direction. -/
lemma cg_p_dot_rNew {n : Type*} [Fintype n] {A : Matrix n n ℝ} {b : n → ℝ}
    (hA : IsSPD A) {s : CGState n} (hs : CGInv A b s)
    (h : s.r ⬝ᵥ s.r ≠ 0) : s.p ⬝ᵥ cgResNew A s = 0 := by
  have hpap := cg_pAp_pos hA hs h
  rw [cgResNew, Matrix.dotProduct_sub, Matrix.dotProduct_smul, cgAlpha,
    hs.1, smul_eq_mul, div_mul_cancel₀ _ (ne_of_gt hpap), sub_self]

lemma cgStep_preserves_inv {n : Type*} [Fintype n] {A : Matrix n n ℝ}
    {b : n → ℝ} (hA : IsSPD A) {s : CGState n} (hs : CGInv A b s) :
    CGInv A b (cgStep A s) := by
  by_cases h : s.r ⬝ᵥ s.r = 0
  · rw [cgStep, if_pos h]
    exact hs
  · rw [cgStep, if_neg h]
    constructor
    · show (cgResNew A s + cgBeta A s • s.p) ⬝ᵥ cgResNew A s
        = cgResNew A s ⬝ᵥ cgResNew A s
      rw [Matrix.add_dotProduct, Matrix.smul_dotProduct, cg_p_dot_rNew hA hs h,
        smul_eq_mul, mul_zero, add_zero]
    · show cgResNew A s = b - A *ᵥ (s.x + cgAlpha A s • s.p)
      rw [cgResNew, Matrix.mulVec_add, Matrix.mulVec_smul, hs.2,
        sub_add_eq_sub_sub]

/-- One conjugate-gradient step never increases the squared energy norm of
the error; on a nonzero residual it decreases it by `α·(r ⬝ᵥ r)`. -/
lemma errEnergySq_cgStep_le {n : Type*} [Fintype n] {A : Matrix n n ℝ}
    {b xstar : n → ℝ} (hA : IsSPD A) (hstar : A *ᵥ xstar = b)
    {s : CGState n} (hs : CGInv A b s) :
    errEnergySq A xstar (cgStep A s) ≤ errEnergySq A xstar s := by
  by_cases h : s.r ⬝ᵥ s.r = 0
  · rw [cgStep, if_pos h]
  · have hpap := cg_pAp_pos hA hs h
    have hAe : A *ᵥ (xstar - s.x) = s.r := by
      rw [Matrix.mulVec_sub, hstar, ← hs.2]
    have hpAe : s.p ⬝ᵥ (A *ᵥ (xstar - s.x)) = s.r ⬝ᵥ s.r := by
      rw [hAe, hs.1]
    have heAp : (xstar - s.x) ⬝ᵥ (A *ᵥ s.p) = s.r ⬝ᵥ s.r := by
      rw [dotProduct_mulVec_symm hA.1, hpAe]
    have hexpand : ∀ (e p : n → ℝ) (a : ℝ),
        (e - a • p) ⬝ᵥ (A *ᵥ (e - a • p))
          = e ⬝ᵥ (A *ᵥ e) - a * (p ⬝ᵥ (A *ᵥ e)) - a * (e ⬝ᵥ (A *ᵥ p))
            + a * (a * (p ⬝ᵥ (A *ᵥ p))) := by
      intro e p a
      simp only [Matrix.mulVec_sub, Matrix.mulVec_smul,
        Matrix.sub_dotProduct, Matrix.dotProduct_sub, Matrix.smul_dotProduct,
        Matrix.dotProduct_smul, smul_eq_mul]
      ring
    rw [cgStep, if_neg h]
    show (xstar - (s.x + cgAlpha A s • s.p)) ⬝ᵥ
        (A *ᵥ (xstar - (s.x + cgAlpha A s • s.p)))
      ≤ errEnergySq A xstar s
    rw [sub_add_eq_sub_sub, hexpand (xstar - s.x) s.p (cgAlpha A s),
      hpAe, heAp, errEnergySq]
    have hρ : 0 ≤ s.r ⬝ᵥ s.r := dotProduct_self_nonneg s.r
    have hα : 0 ≤ cgAlpha A s := by
      rw [cgAlpha]
      exact div_nonneg hρ (le_of_lt hpap)
    have hπ : cgAlpha A s * (s.p ⬝ᵥ (A *ᵥ s.p)) = s.r ⬝ᵥ s.r := by
      rw [cgAlpha, div_mul_cancel₀ _ (ne_of_gt hpap)]
    rw [hπ]
    have hkey : 0 ≤ cgAlpha A s * (s.r ⬝ᵥ s.r) := mul_nonneg hα hρ
    linarith

lemma cgIterate_succ {n : Type*} [Fintype n] (A : Matrix n n ℝ) (b : n → ℝ)
    (k : ℕ) : cgIterate A b (k + 1) = cgStep A (cgIterate A b k) :=
  Function.iterate_succ_apply' _ _ _

lemma cgIterate_inv {n : Type*} [Fintype n] {A : Matrix n n ℝ} {b : n → ℝ}
    (hA : IsSPD A) (k : ℕ) : CGInv A b (cgIterate A b k) := by
  induction k with
  | zero => exact cgInv_init A b
  | succ m ih =>
    rw [cgIterate_succ]
    exact cgStep_preserves_inv hA ih

/-- Claim C5, amended: on a symmetric positive-definite system the
conjugate-gradient iteration is monotone in the energy norm — the squared
`A`-norm of the error of the iterate never increases from one iteration to
the next (the Euclidean residual norm itself can increase, see the
counterexample). -/
theorem cg_errEnergySq_antitone {n : Type*} [Fintype n] (A : Matrix n n ℝ)
    (b xstar : n → ℝ) (hA : IsSPD A) (hstar : A *ᵥ xstar = b) (k : ℕ) :
    errEnergySq A xstar (cgIterate A b (k + 1))
      ≤ errEnergySq A xstar (cgIterate A b k) := by
  rw [cgIterate_succ]
  exact errEnergySq_cgStep_le hA hstar (cgIterate_inv hA k)

/-- Witness for the amended claim C5 on the 1×1 system `2·x = 6`. -/
theorem cg_errEnergySq_antitone_witness :
    errEnergySq !![(2 : ℝ)] ![3] (cgIterate !![(2 : ℝ)] ![6] 1)
      ≤ errEnergySq !![(2 : ℝ)] ![3] (cgIterate !![(2 : ℝ)] ![6] 0) := by
  have hA : IsSPD !![(2 : ℝ)] := by
    constructor
    · ext i j
      fin_cases i
      fin_cases j
      rfl
    · intro x hx
      have h0 : x 0 ≠ 0 := by
        intro h
        apply hx
        funext i
        fin_cases i
        exact h
      have hq : x ⬝ᵥ (!![(2 : ℝ)] *ᵥ x) = 2 * (x 0 * x 0) := by
        simp [Matrix.mulVec, Matrix.dotProduct, Fin.sum_univ_one]
        ring
      rw [hq]
      have := mul_self_pos.mpr h0
      linarith
  have hstar : !![(2 : ℝ)] *ᵥ ![3] = ![6] := by
    funext i
    fin_cases i
    simp [Matrix.mulVec, Matrix.dotProduct, Fin.sum_univ_one]
    norm_num
  exact cg_errEnergySq_antitone !![(2 : ℝ)] ![6] ![3] hA hstar 0

/-- Counterexample to claim C5 as stated: on the symmetric positive-definite
system with matrix `[[1, 2], [2, 5]]` and right-hand side `(1, 0)`, the
Euclidean residual norm of the conjugate-gradient iteration strictly
increases from iteration 0 to iteration 1 (from 1 to 2). -/
theorem cg_residual_norm_not_monotone :
    IsSPD !![(1 : ℝ), 2; 2, 5] ∧
      resNormSq (cgIterate !![(1 : ℝ), 2; 2, 5] ![1, 0] 0) <
        resNormSq (cgIterate !![(1 : ℝ), 2; 2, 5] ![1, 0] 1) := by
  constructor
  · constructor
    · ext i j
      fin_cases i <;> fin_cases j <;> rfl
    · intro x hx
      have hx01 : x 0 ≠ 0 ∨ x 1 ≠ 0 := by
        by_contra hc
        push_neg at hc
        apply hx
        funext i
        fin_cases i
        · exact hc.1
        · exact hc.2
      have hq : x ⬝ᵥ (!![(1 : ℝ), 2; 2, 5] *ᵥ x)
          = x 0 * (x 0 + 2 * x 1) + x 1 * (2 * x 0 + 5 * x 1) := by
        simp [Matrix.mulVec, Matrix.dotProduct, Fin.sum_univ_two]
      rw [hq]
      rcases hx01 with h | h
      · nlinarith [mul_self_pos.mpr h, sq_nonneg (x 0 + 2 * x 1),
          sq_nonneg (x 1), sq_nonneg (x 0 + (12 / 5) * x 1)]
      · nlinarith [mul_self_pos.mpr h, sq_nonneg (x 0 + 2 * x 1),
          sq_nonneg (x 0), sq_nonneg (x 0 + (12 / 5) * x 1)]
  · have h0 : resNormSq (cgIterate !![(1 : ℝ), 2; 2, 5] ![1, 0] 0) = 1 := by
      simp [cgIterate, cgInit, resNormSq, Matrix.dotProduct, Fin.sum_univ_two]
    have hne : (![(1 : ℝ), 0] ⬝ᵥ ![(1 : ℝ), 0]) = 1 := by
      simp [Matrix.dotProduct, Fin.sum_univ_two]
    have hrnew : cgResNew !![(1 : ℝ), 2; 2, 5] (cgInit ![1, 0]) = ![0, -2] := by
      funext i
      fin_cases i <;>
        norm_num [cgResNew, cgAlpha, cgInit, Matrix.mulVec, Matrix.dotProduct,
          Fin.sum_univ_two]
    have h1 : resNormSq (cgIterate !![(1 : ℝ), 2; 2, 5] ![1, 0] 1) = 4 := by
      have hit : cgIterate !![(1 : ℝ), 2; 2, 5] ![1, 0] 1
          = cgStep !![(1 : ℝ), 2; 2, 5] (cgInit ![1, 0]) := by
        rw [cgIterate_succ]
        rfl
      rw [hit, cgStep, if_neg (by rw [show (cgInit ![(1 : ℝ), 0]).r = ![1, 0] from rfl, hne]; norm_num)]
      show cgResNew !![(1 : ℝ), 2; 2, 5] (cgInit ![1, 0]) ⬝ᵥ
        cgResNew !![(1 : ℝ), 2; 2, 5] (cgInit ![1, 0]) = 4
      rw [hrnew]
      norm_num [Matrix.dotProduct, Fin.sum_univ_two]
    rw [h0, h1]
    norm_num

/-- Claim C6: when the iteration budget is exhausted without the squared
residual norm reaching the tolerance, the solver still returns (it is a total
function, never a fatal error), hands back the final — best available —
iterate, and raises the convergence-warning flag. -/
theorem cgSolve_budget_exceeded {n : Type*} [Fintype n] (A : Matrix n n ℝ)
    (b : n → ℝ) (maxIter : ℕ) (tol : ℝ)
    (h : ¬ resNormSq (cgIterate A b maxIter) ≤ tol) :
    cgSolve A b maxIter tol = ((cgIterate A b maxIter).x, true) := by
  simp only [cgSolve]
  rw [if_neg h]

/-- Witness for claim C6: a budget of zero iterations on the system
`1·x = 1` with tolerance `1/2` exceeds the budget and warns. -/
theorem cgSolve_budget_exceeded_witness :
    cgSolve !![(1 : ℝ)] ![1] 0 (1 / 2)
      = ((cgIterate !![(1 : ℝ)] ![1] 0).x, true) :=
  cgSolve_budget_exceeded !![(1 : ℝ)] ![1] 0 (1 / 2)
    (by norm_num [cgIterate, cgInit, resNormSq, Matrix.dotProduct,
      Fin.sum_univ_one])

/-! ### Positive semidefiniteness of the RBF grid kernel matrix -/

/-- Quadratic forms against the entrywise exponential of a rank-one Gram
matrix are nonnegative: expanding `exp` into its power series turns the form
into a series of perfect squares. -/
lemma exp_gram_quadform_nonneg {M : ℕ} (a y : Fin M → ℝ) :
    0 ≤ ∑ i, ∑ j, y i * y j * Real.exp (a i * a j) := by
  have hexp : ∀ c : ℝ, Real.exp c = tsum fun k : ℕ => c ^ k / (Nat.factorial k) := by
    intro c
    rw [Real.exp_eq_exp_ℝ, NormedSpace.exp_eq_tsum_div]
  have hsum : ∀ c : ℝ, Summable fun k : ℕ => c ^ k / (Nat.factorial k) :=
    fun c => NormedSpace.expSeries_div_summable ℝ c
  have hsummand : ∀ i j : Fin M,
      Summable fun k : ℕ => y i * y j * ((a i * a j) ^ k / (Nat.factorial k)) :=
    fun i j => (hsum (a i * a j)).mul_left (y i * y j)
  have h1 : (∑ i, ∑ j, y i * y j * Real.exp (a i * a j))
      = tsum fun k : ℕ => (∑ i, y i * a i ^ k) ^ 2 / (Nat.factorial k) := by
    calc ∑ i, ∑ j, y i * y j * Real.exp (a i * a j)
        = ∑ i, ∑ j, tsum fun k : ℕ =>
            y i * y j * ((a i * a j) ^ k / (Nat.factorial k)) := by
          refine Finset.sum_congr rfl fun i _ => ?_
          refine Finset.sum_congr rfl fun j _ => ?_
          rw [hexp, ← tsum_mul_left]
      _ = ∑ i, tsum fun k : ℕ => ∑ j,
            y i * y j * ((a i * a j) ^ k / (Nat.factorial k)) := by
          refine Finset.sum_congr rfl fun i _ => ?_
          exact (tsum_sum fun j _ => hsummand i j).symm
      _ = tsum fun k : ℕ => ∑ i, ∑ j,
            y i * y j * ((a i * a j) ^ k / (Nat.factorial k)) := by
          refine (tsum_sum fun i _ => ?_).symm
          exact summable_sum fun j _ => hsummand i j
      _ = tsum fun k : ℕ => (∑ i, y i * a i ^ k) ^ 2 / (Nat.factorial k) := by
          refine tsum_congr fun k => ?_
          rw [sq, Finset.sum_mul_sum, Finset.sum_div]
          refine Finset.sum_congr rfl fun i _ => ?_
          rw [Finset.sum_div]
          refine Finset.sum_congr rfl fun j _ => ?_
          rw [mul_pow]
          ring
  rw [h1]
  exact tsum_nonneg fun k => div_nonneg (sq_nonneg _) (Nat.cast_nonneg _)

/-- Factorization of the RBF kernel into a product of point factors and the
exponential of a rank-one product — the algebraic heart of its positive
semidefiniteness. -/
lemma rbfKernel_factor {l : ℝ} (hl : l ≠ 0) (x y : ℝ) :
    rbfKernel l x y
      = (Real.exp (-(x ^ 2) / (2 * l ^ 2)) * Real.exp (-(y ^ 2) / (2 * l ^ 2)))
        * Real.exp ((x / l) * (y / l)) := by
  rw [rbfKernel, ← Real.exp_add, ← Real.exp_add]
  congr 1
  field_simp
  ring

/-- Claim C7: for every positive lengthscale the grid-grid RBF kernel matrix
is symmetric and positive semidefinite (hence has only nonnegative
eigenvalues), for any grid bounds and any grid size. -/
theorem gridKernelMatrix_posSemidef (l lo hi : ℝ) (M : ℕ) (hl : 0 < l) :
    (gridKernelMatrix l lo hi M).PosSemidef := by
  have hl0 : l ≠ 0 := ne_of_gt hl
  constructor
  · rw [Matrix.IsHermitian]
    ext i j
    simp only [Matrix.conjTranspose_apply, star_trivial, gridKernelMatrix,
      Matrix.of_apply]
    rw [rbfKernel, rbfKernel]
    congr 1
    ring
  · intro v
    have hv : star v = v := by
      funext i
      simp
    rw [hv]
    have hdouble : v ⬝ᵥ (gridKernelMatrix l lo hi M *ᵥ v)
        = ∑ i, ∑ j,
            (v i * Real.exp (-(realGridPoint lo hi M i ^ 2) / (2 * l ^ 2)))
              * (v j * Real.exp (-(realGridPoint lo hi M j ^ 2) / (2 * l ^ 2)))
              * Real.exp ((realGridPoint lo hi M i / l)
                  * (realGridPoint lo hi M j / l)) := by
      simp only [Matrix.dotProduct, Matrix.mulVec, Finset.mul_sum]
      refine Finset.sum_congr rfl fun i _ => ?_
      refine Finset.sum_congr rfl fun j _ => ?_
      rw [gridKernelMatrix, Matrix.of_apply, rbfKernel_factor hl0]
      ring
    rw [hdouble]
    exact exp_gram_quadform_nonneg
      (fun i => realGridPoint lo hi M i / l)
      (fun i => v i * Real.exp (-(realGridPoint lo hi M i ^ 2) / (2 * l ^ 2)))

/-- Witness for claim C7: the grid kernel matrix on a 10-node grid over
`[0, 1]` with unit lengthscale is positive semidefinite. -/
theorem gridKernelMatrix_posSemidef_witness :
    (gridKernelMatrix 1 0 1 10).PosSemidef :=
  gridKernelMatrix_posSemidef 1 0 1 10 (by norm_num)

end GPyTorchExamples
